import Mathlib

/-!
Verification of the inline-completion request coordinator of
src/extensions/ollama/src/completionProvider.ts (class
OllamaInlineCompletionProvider).

Strings are modelled as lists of characters (`Str`); JavaScript string
methods (trim, startsWith, split, join, substring, regex replaces) are
translated into explicit list functions.  Timestamps (Date.now()) are
integers.  The two regular expressions of cleanCompletion are anchored and
deterministic, so they are translated into direct pattern functions.
-/

abbrev Str := List Char

/-- The backtick character (code 96), written numerically. -/
def backtickChar : Char := Char.ofNat 96

/-- JavaScript whitespace as used by String.prototype.trim and by the
regex class backslash-s, restricted to the ASCII range (tab, line feed,
vertical tab, form feed, carriage return, space). -/
def isWsChar (c : Char) : Bool :=
  c = ' ' || c = '\t' || c = '\n' || c = '\r' || c.toNat = 11 || c.toNat = 12

/-- A word character of the JavaScript regex class backslash-w:
ASCII alphanumeric or underscore. -/
def isWordChar (c : Char) : Bool :=
  c.isAlphanum || c = '_'

/-- Model of String.prototype.trim: drop whitespace from both ends. -/
def trimStr (s : Str) : Str :=
  ((s.dropWhile isWsChar).reverse.dropWhile isWsChar).reverse

/-- The three-backtick fence marker. -/
def fenceMarker : Str := [backtickChar, backtickChar, backtickChar]

/-- Newline followed by the fence marker: what the trailing-fence regex
matches at the end of the string. -/
def closeMarker : Str := '\n' :: fenceMarker

/-- Whether the leading-fence regex (caret, three backticks, a run of word
characters, newline) matches at the start of `s`.  The word-character run
is greedy but forced: the character after it must be a newline, which is
not a word character, so maximal munch is the unique match. -/
def hasLeadingFence (s : Str) : Bool :=
  match s with
  | a :: b :: c :: rest =>
    a = backtickChar && b = backtickChar && c = backtickChar &&
      decide ((rest.dropWhile isWordChar).head? = some '\n')
  | _ => false

/-- Whether the trailing-fence regex (newline, three backticks, dollar)
matches at the end of `s`. -/
def hasTrailingFence (s : Str) : Bool :=
  decide (closeMarker <:+ s)

/-- Model of the first replace of line 222, whose regex matches a caret
anchor, three backticks, a run of word characters and a newline: strip
one leading fence opener with optional language tag, when present. -/
def stripLeadingFence (s : Str) : Str :=
  if hasLeadingFence s then ((s.drop 3).dropWhile isWordChar).tail else s

/-- Model of the second replace of line 222, whose regex matches a
newline, three backticks and an end anchor: strip one trailing fence
closer, when present. -/
def stripTrailingFence (s : Str) : Str :=
  if hasTrailingFence s then s.take (s.length - 4) else s

/-- The two successive replaces of cleanCompletion, line 222 of
completionProvider.ts: each strip is applied independently of the other. -/
def stripFences (s : Str) : Str :=
  stripTrailingFence (stripLeadingFence s)

/-- Model of String.prototype.split with separator newline. -/
def splitNl : Str → List Str
  | [] => [[]]
  | c :: rest =>
    if c = '\n' then [] :: splitNl rest
    else
      match splitNl rest with
      | [] => [[c]]
      | l :: ls => (c :: l) :: ls

/-- Model of Array.prototype.join with separator newline. -/
def joinNl (lines : List Str) : Str :=
  List.intercalate ['\n'] lines

/-- Case-insensitive startsWith for an all-lowercase ASCII pattern `w`. -/
def ciStartsWith (w : Str) (s : Str) : Bool :=
  decide ((s.take w.length).map Char.toLower = w)

/-- The discourse markers of the first explanatory-line regex of
isExplanatoryLine, lines 247-248. -/
def explWordsMain : List Str :=
  [( "this").data, ( "the").data, ( "here").data, ( "now").data,
   ( "then").data, ( "explanation").data, ( "note").data, ( "important").data]

/-- The discourse markers of the second explanatory-line regex. -/
def explWordsComment : List Str :=
  [( "explanation").data, ( "note").data, ( "this").data]

/-- The second explanatory pattern `/^(\/\*|\/\/|\#)\s*(explanation|note|this)/i`
applied to the trimmed line `t`: a comment opener, optional whitespace,
then one of the markers. -/
def explanatoryCommentMatch (t : Str) : Bool :=
  if ( "/*").data.isPrefixOf t then
    explWordsComment.any fun w => ciStartsWith w ((t.drop 2).dropWhile isWsChar)
  else if ( "//").data.isPrefixOf t then
    explWordsComment.any fun w => ciStartsWith w ((t.drop 2).dropWhile isWsChar)
  else if ( "#").data.isPrefixOf t then
    explWordsComment.any fun w => ciStartsWith w ((t.drop 1).dropWhile isWsChar)
  else false

/-- Model of isExplanatoryLine, lines 246-253: either regex tested against
the trimmed line. -/
def isExplanatoryLine (line : Str) : Bool :=
  let t := trimStr line
  (explWordsMain.any fun w => ciStartsWith w t) || explanatoryCommentMatch t

/-- Model of cleanCompletion, lines 217-244: trim, strip fences, keep the
prefix of lines before the first explanatory line, cap at 500 characters.
The languageId parameter is accepted but, as in the source, unused. -/
def cleanCompletion (completion : Str) (languageId : Str) : Str :=
  let cleaned := trimStr completion
  let cleaned2 := stripFences cleaned
  let lines := splitNl cleaned2
  let codeLines := lines.takeWhile fun l => !(isExplanatoryLine l)
  let joined := joinNl codeLines
  if 500 < joined.length then joined.take 500 else joined

/-- What claim C4 says the fence-stripping step does: strip the leading
opener and the trailing closer only when both are present, otherwise strip
neither.  Written from the claim, to be compared with `stripFences`. -/
def stripFencesSpecC4 (s : Str) : Str :=
  if hasLeadingFence s && hasTrailingFence s then
    stripTrailingFence (stripLeadingFence s)
  else s

/-- The sanitizer as claim C4 describes it: cleanCompletion with the
fence step replaced by the both-or-neither variant. -/
def cleanCompletionSpecC4 (completion : Str) (languageId : Str) : Str :=
  let cleaned := trimStr completion
  let cleaned2 := stripFencesSpecC4 cleaned
  let lines := splitNl cleaned2
  let codeLines := lines.takeWhile fun l => !(isExplanatoryLine l)
  let joined := joinNl codeLines
  if 500 < joined.length then joined.take 500 else joined

/-- The static language-to-comment-openers table of isInComment,
lines 110-120; unknown languages map to the empty list. -/
def commentPatterns (languageId : Str) : List Str :=
  if languageId = ( "javascript").data then [( "//").data, ( "/*").data]
  else if languageId = ( "typescript").data then [( "//").data, ( "/*").data]
  else if languageId = ( "python").data then [( "#").data]
  else if languageId = ( "java").data then [( "//").data, ( "/*").data]
  else if languageId = ( "csharp").data then [( "//").data, ( "/*").data]
  else if languageId = ( "go").data then [( "//").data, ( "/*").data]
  else if languageId = ( "rust").data then [( "//").data, ( "/*").data]
  else if languageId = ( "cpp").data then [( "//").data, ( "/*").data]
  else if languageId = ( "c").data then [( "//").data, ( "/*").data]
  else []

/-- Model of isInComment, lines 109-124: some opener of the language is a
prefix of the trimmed line prefix. -/
def isInComment (linePre : Str) (languageId : Str) : Bool :=
  (commentPatterns languageId).any fun p => p.isPrefixOf (trimStr linePre)

/-- Whether the character at index `i` of `l` exists and is a word
character.  Used to state the mid-word rule of claim C9. -/
def wordAt (l : Str) (i : Nat) : Bool :=
  (l[i]?).any isWordChar

/-- Model of shouldProvideCompletion, lines 79-107, for a cursor at
character offset `character` of the line `lineText`.  `charBefore` is the
character before the cursor when the cursor is not at offset 0 (the source
uses the empty string there, which the word-character test rejects), and
`charAfter` the character under the cursor when the cursor is not at the
end of the line.  The source guards the rejection on `charAfter` being
truthy, so a missing after-character never rejects. -/
def shouldProvideCompletion (lineText : Str) (character : Nat) (languageId : Str) : Bool :=
  let linePre := lineText.take character
  if isInComment linePre languageId then false
  else if (trimStr linePre).length < 3 then false
  else
    let charBefore := if 0 < character then lineText[character - 1]? else none
    let charAfter := if character < lineText.length then lineText[character]? else none
    if charAfter.any isWordChar && charBefore.any isWordChar then false
    else true

/-- Truncation of a JavaScript number to a signed 32-bit integer, as done
by the bitwise operators in simpleHash. -/
def toInt32 (n : Int) : Int :=
  let m := n % 4294967296
  if m < 2147483648 then m else m - 4294967296

/-- Model of simpleHash, lines 261-269: hash = ((hash << 5) - hash) + code,
coerced to 32 bits at the shift and at the final bitwise-and. -/
def simpleHash (s : Str) : Int :=
  s.foldl (fun hash c => toInt32 (toInt32 (hash * 32) - hash + (c.toNat : Int))) 0

/-- A base-36 digit as produced by Number.prototype.toString(36). -/
def digit36 (d : Nat) : Char :=
  if d < 10 then Char.ofNat (48 + d) else Char.ofNat (87 + d)

/-- Base-36 digits of a natural number, most significant first; the fuel
argument bounds the recursion depth and `fuel = n + 1` always suffices. -/
def natDigits36Aux (fuel : Nat) (n : Nat) : Str :=
  match fuel with
  | 0 => []
  | fuel2 + 1 =>
    if n < 36 then [digit36 n]
    else natDigits36Aux fuel2 (n / 36) ++ [digit36 (n % 36)]

/-- Base-36 rendering of a natural number. -/
def natDigits36 (n : Nat) : Str :=
  natDigits36Aux (n + 1) n

/-- Model of Number.prototype.toString(36) on a (possibly negative)
integer, as used on the hash in createCacheKey. -/
def intToString36 (i : Int) : Str :=
  if i < 0 then '-' :: natDigits36 (-i).toNat else natDigits36 i.toNat

/-- Model of createCacheKey, lines 255-259: languageId, a colon, and the
base-36 hash of the context text. -/
def createCacheKey (contextText : Str) (languageId : Str) : Str :=
  languageId ++ ':' :: intToString36 (simpleHash contextText)

/-- A cache entry, interface CompletionCache of lines 9-13. -/
structure CacheEntry where
  key : Str
  completion : Str
  timestamp : Int
  deriving DecidableEq

/-- maxCacheSize, line 19. -/
def maxCacheSize : Nat := 50

/-- cacheExpiryMs, line 20: five minutes. -/
def cacheExpiryMs : Int := 300000

/-- Model of getCachedCompletion, lines 271-281: drop every expired entry
from the store, then look the key up among the survivors.  The pair holds
the returned completion (null becomes none) and the mutated store. -/
def getCachedCompletion (cache : List CacheEntry) (key : Str) (now : Int) :
    Option Str × List CacheEntry :=
  let live := cache.filter fun e => decide (now - e.timestamp < cacheExpiryMs)
  ((live.find? fun e => decide (e.key = key)).map (fun e => e.completion), live)

/-- The descending-timestamp comparison of the sort on line 294
(`(a, b) => b.timestamp - a.timestamp`). -/
def tsDesc (a b : CacheEntry) : Prop := b.timestamp ≤ a.timestamp

instance : DecidableRel tsDesc :=
  fun a b => inferInstanceAs (Decidable (b.timestamp ≤ a.timestamp))

/-- Strict version of `tsDesc`; on entries with pairwise distinct
timestamps the two orders sort identically. -/
def tsDescStrict (a b : CacheEntry) : Prop := b.timestamp < a.timestamp

instance : IsAntisymm CacheEntry tsDescStrict :=
  ⟨fun _ _ h1 h2 => absurd h1 (not_lt_of_gt h2)⟩

instance : IsTrans CacheEntry tsDesc :=
  ⟨fun _ _ _ h1 h2 => le_trans h2 h1⟩

instance : IsTotal CacheEntry tsDesc :=
  ⟨fun a b => Int.le_total b.timestamp a.timestamp⟩

/-- Model of setCachedCompletion, lines 283-297: remove any entry with the
same key, push the new entry at the end, and on overflow sort by
descending timestamp and keep the first maxCacheSize entries.  The
Array.prototype.sort of the source is modelled by insertion sort under the same
comparator; for the overflow path the claims are only about stores whose
timestamps are pairwise distinct, where every sort agrees. -/
def setCachedCompletion (cache : List CacheEntry) (key completion : Str) (now : Int) :
    List CacheEntry :=
  let kept := cache.filter fun e => !decide (e.key = key)
  let pushed := kept ++ [{ key := key, completion := completion, timestamp := now }]
  if maxCacheSize < pushed.length then (pushed.insertionSort tsDesc).take maxCacheSize
  else pushed

/-- The store operations that mutate the private cache array: insert
(setCachedCompletion), lookup (getCachedCompletion, which filters expired
entries in place) and clearCache. -/
inductive CacheOp where
  | set (key completion : Str) (now : Int)
  | lookup (key : Str) (now : Int)
  | clear

/-- Apply one store operation to the cache array. -/
def applyOp (cache : List CacheEntry) : CacheOp → List CacheEntry
  | .set k c n => setCachedCompletion cache k c n
  | .lookup k n => (getCachedCompletion cache k n).2
  | .clear => []

/-- Run a sequence of store operations from the initial empty cache
(line 17). -/
def runOps (ops : List CacheOp) : List CacheEntry :=
  ops.foldl applyOp []

/-- The entry built from one insert triple (key, completion, timestamp). -/
def mkEntry (i : Str × Str × Int) : CacheEntry :=
  ⟨i.1, i.2.1, i.2.2⟩

/-- Run a sequence of inserts from the initial empty cache. -/
def applyInserts (inserts : List (Str × Str × Int)) : List CacheEntry :=
  inserts.foldl (fun c i => setCachedCompletion c i.1 i.2.1 i.2.2) []

/-- The store contents claim C2 predicts for a sequence of inserts given
in chronological order: all of them while they fit, and afterwards exactly
the maxCacheSize most recently created ones (the list tail), in
descending-timestamp order as left by the eviction sort. -/
def expectedCache (inserts : List (Str × Str × Int)) : List CacheEntry :=
  if inserts.length ≤ maxCacheSize then inserts.map mkEntry
  else ((inserts.drop (inserts.length - maxCacheSize)).map mkEntry).reverse

/-- A suggestion as returned to the host: the insertion text of the
inline completion item (the range field, built from the request position
alone, is host-owned rendering data and is not modelled). -/
structure Suggestion where
  insertText : Str
  deriving DecidableEq

/-- The observable outcome of one generateCompletions call. -/
structure GenResult where
  items : List Suggestion
  cache : List CacheEntry
  backendCalled : Bool
  deriving DecidableEq

/-- Model of generateCompletions, lines 126-188, for one request.
`contextText` is the document slice of getContextRange, `rawResponse` the
text the backend would return, and the two Booleans give the state of the
cancellation token at the two checkpoints (line 150, before the backend
call, and line 163, after the response).  `backendCalled` records whether
ollamaService.generateCompletion was invoked.  The isGenerating flag is
set on line 148 and unconditionally cleared in the finally block on
line 186, so it is not part of the result. -/
def generateCompletions (cache : List CacheEntry) (contextText languageId : Str)
    (now : Int) (cancelledBeforeCall cancelledAfterCall : Bool)
    (rawResponse : Str) : GenResult :=
  let cacheKey := createCacheKey contextText languageId
  let looked := getCachedCompletion cache cacheKey now
  match looked.1 with
  | some c => { items := [⟨c⟩], cache := looked.2, backendCalled := false }
  | none =>
    if cancelledBeforeCall then { items := [], cache := looked.2, backendCalled := false }
    else if cancelledAfterCall then { items := [], cache := looked.2, backendCalled := true }
    else
      let cleaned := cleanCompletion rawResponse languageId
      if cleaned.length = 0 then { items := [], cache := looked.2, backendCalled := true }
      else
        { items := [⟨cleaned⟩],
          cache := setCachedCompletion looked.2 cacheKey cleaned now,
          backendCalled := true }

/-- The scheduling state of one provider instance.  `pendingTimers` are
the timer handles created by setTimeout and neither fired nor cleared;
`debounceTimer` is the field of line 22 (it keeps its value after a fire,
exactly as in the source); `nextTimerId` supplies fresh handles.
`resolvedReqs` records the requests whose promises have been resolved,
`cancelledTimers` which scheduled timers were cleared by a later request
(superseded requests), and `backendFires` which timer callbacks ran; the
last three are observers and never feed back into the behaviour. -/
structure ProvState where
  pendingTimers : List Nat
  debounceTimer : Option Nat
  nextTimerId : Nat
  isGenerating : Bool
  resolvedReqs : List Nat
  cancelledTimers : List Nat
  backendFires : List Nat
  deriving DecidableEq

/-- The provider state at construction: no timer, not generating. -/
def initProvState : ProvState :=
  ⟨[], none, 0, false, [], [], []⟩

/-- The debounce block of provideInlineCompletionItems, lines 62-76:
clearTimeout on the stored handle (a no-op when that timer already fired),
then setTimeout of a fresh timer, stored as the new debounceTimer.  The
request is identified with its timer handle. -/
def scheduleRequest (s : ProvState) : ProvState :=
  let cancelledNow :=
    match s.debounceTimer with
    | some d => if d ∈ s.pendingTimers then [d] else []
    | none => []
  { s with
    pendingTimers :=
      (match s.debounceTimer with
       | some d => s.pendingTimers.erase d
       | none => s.pendingTimers) ++ [s.nextTimerId],
    debounceTimer := some s.nextTimerId,
    nextTimerId := s.nextTimerId + 1,
    cancelledTimers := s.cancelledTimers ++ cancelledNow }

/-- Model of the synchronous part of provideInlineCompletionItems,
lines 41-77: the configuration and in-flight gates (line 52), the
eligibility gate (line 57), then the debounce block.  `some []` is an
immediately resolved empty result; `none` means the promise is pending,
to be resolved only by the callback of the scheduled timer. -/
def provideInline (s : ProvState) (isEnabled enableAutoCompletion eligible : Bool) :
    ProvState × Option (List Suggestion) :=
  if !isEnabled || !enableAutoCompletion || s.isGenerating then (s, some [])
  else if !eligible then (s, some [])
  else (scheduleRequest s, none)

/-- A scheduled timer fires: possible only for a timer that was neither
cleared nor already fired.  The callback resolves the promise of the
request
and proceeds towards the backend call. -/
def fireTimer (s : ProvState) (id : Nat) : Option ProvState :=
  if id ∈ s.pendingTimers then
    some { s with
      pendingTimers := s.pendingTimers.erase id,
      resolvedReqs := s.resolvedReqs ++ [id],
      backendFires := s.backendFires ++ [id] }
  else none

/-- The events of the single-threaded scheduling model: a new completion
request from the host (with the values of the two configuration gates and
of the eligibility filter), or the fire of a scheduled timer. -/
inductive Ev where
  | req (isEnabled enableAutoCompletion eligible : Bool)
  | fire (id : Nat)

/-- One scheduling step; `none` when the event cannot occur (firing a
timer that is not pending). -/
def stepEv (s : ProvState) : Ev → Option ProvState
  | .req e a g => some (provideInline s e a g).1
  | .fire id => fireTimer s id

/-- Run a sequence of scheduling events. -/
def runEvents : ProvState → List Ev → Option ProvState
  | s, [] => some s
  | s, e :: es =>
    match stepEv s e with
    | some s2 => runEvents s2 es
    | none => none

/-- The inductive invariant of the scheduling model: at most one timer is
ever pending and it is the stored debounceTimer; handles are allocated
fresh; a cleared (superseded) timer is not pending and its promise is not
resolved; the timer of a resolved request is not pending. -/
def ProvInv (s : ProvState) : Prop :=
  (s.pendingTimers = [] ∨ ∃ d, s.debounceTimer = some d ∧ s.pendingTimers = [d]) ∧
  (∀ id ∈ s.pendingTimers, id < s.nextTimerId) ∧
  (∀ id ∈ s.cancelledTimers, id < s.nextTimerId) ∧
  (∀ id ∈ s.resolvedReqs, id < s.nextTimerId) ∧
  (∀ id ∈ s.cancelledTimers, id ∉ s.resolvedReqs ∧ id ∉ s.pendingTimers) ∧
  (∀ id ∈ s.resolvedReqs, id ∉ s.pendingTimers)

/-! Theorems.  Helper lemmas first, then one theorem per claim, with
counterexamples and witnesses where needed. -/

theorem dropWhile_word_append (tag r : Str) (htag : ∀ c ∈ tag, isWordChar c = true) :
    (tag ++ '\n' :: r).dropWhile isWordChar = '\n' :: r := by
  induction tag with
  | nil =>
    simp [List.dropWhile_cons, show isWordChar '\n' = false by decide]
  | cons c t ih =>
    have hc : isWordChar c = true := htag c (List.mem_cons_self c t)
    simp only [List.cons_append, List.dropWhile_cons, hc, if_true]
    exact ih fun d hd => htag d (List.mem_cons_of_mem c hd)

theorem hasLeadingFence_block (tag r : Str) (htag : ∀ c ∈ tag, isWordChar c = true) :
    hasLeadingFence (fenceMarker ++ tag ++ '\n' :: r) = true := by
  simp [hasLeadingFence, fenceMarker, dropWhile_word_append tag r htag]

theorem stripLeadingFence_block (tag r : Str) (htag : ∀ c ∈ tag, isWordChar c = true) :
    stripLeadingFence (fenceMarker ++ tag ++ '\n' :: r) = r := by
  rw [stripLeadingFence, if_pos (hasLeadingFence_block tag r htag)]
  simp [fenceMarker, dropWhile_word_append tag r htag]

theorem stripLeadingFence_of_none (s : Str) (h : hasLeadingFence s = false) :
    stripLeadingFence s = s := by
  simp [stripLeadingFence, h]

theorem stripTrailingFence_block (b : Str) :
    stripTrailingFence (b ++ closeMarker) = b := by
  have hs : hasTrailingFence (b ++ closeMarker) = true := by
    simp [hasTrailingFence, List.suffix_append]
  rw [stripTrailingFence, if_pos hs]
  have hlen : (b ++ closeMarker).length - 4 = b.length := by
    simp [closeMarker, fenceMarker]
  rw [hlen, List.take_left]

theorem stripTrailingFence_of_none (s : Str) (h : hasTrailingFence s = false) :
    stripTrailingFence s = s := by
  simp [stripTrailingFence, h]

/-- Claim C4 (corrected): the two fence replaces are independent.  For a
body that itself matches neither anchored fence pattern, a leading opener
is stripped whenever it is present and a trailing closer is stripped
whenever it is present — in every one of the four presence combinations —
and the strip removes exactly one layer, leaving mid-text fences inside
the body untouched. -/
theorem c4_independent_fence_stripping (tag body : Str)
    (htag : ∀ c ∈ tag, isWordChar c = true)
    (hleadB : hasLeadingFence body = false)
    (htrailB : hasTrailingFence body = false)
    (hleadBC : hasLeadingFence (body ++ closeMarker) = false) :
    stripFences (fenceMarker ++ tag ++ '\n' :: (body ++ closeMarker)) = body ∧
    stripFences (fenceMarker ++ tag ++ '\n' :: body) = body ∧
    stripFences (body ++ closeMarker) = body ∧
    stripFences body = body := by
  refine ⟨?_, ?_, ?_, ?_⟩
  · rw [stripFences, stripLeadingFence_block tag _ htag, stripTrailingFence_block]
  · rw [stripFences, stripLeadingFence_block tag _ htag, stripTrailingFence_of_none _ htrailB]
  · rw [stripFences, stripLeadingFence_of_none _ hleadBC, stripTrailingFence_block]
  · rw [stripFences, stripLeadingFence_of_none _ hleadB, stripTrailingFence_of_none _ htrailB]

/-- Witness for `c4_independent_fence_stripping` at tag "ts", body "x". -/
theorem c4_independent_fence_stripping_witness :
    stripFences (fenceMarker ++ ( "ts").data ++ '\n' :: (( "x").data ++ closeMarker)) = ( "x").data ∧
    stripFences (fenceMarker ++ ( "ts").data ++ '\n' :: ( "x").data) = ( "x").data ∧
    stripFences (( "x").data ++ closeMarker) = ( "x").data ∧
    stripFences ( "x").data = ( "x").data :=
  c4_independent_fence_stripping ( "ts").data ( "x").data (by decide) (by decide)
    (by decide) (by decide)

/-- Counterexample to claim C4 as stated: on the input with a leading
fence opener but no trailing closer, the source strips the opener anyway,
while the both-or-neither sanitizer described by the claim keeps it. -/
theorem c4_counterexample :
    cleanCompletion ( "```\nfoo").data ( "typescript").data ≠
      cleanCompletionSpecC4 ( "```\nfoo").data ( "typescript").data := by
  decide

/-- Claim C5 (corrected): the sanitizer is idempotent on already-clean
input, i.e. on any fixed point of the sanitizer; unrestricted idempotence
is false (see the counterexample). -/
theorem c5_idempotent_on_clean (x languageId : Str)
    (h : cleanCompletion x languageId = x) :
    cleanCompletion (cleanCompletion x languageId) languageId =
      cleanCompletion x languageId := by
  rw [h]
  exact h

/-- Witness for `c5_idempotent_on_clean` at the clean input "foo". -/
theorem c5_idempotent_on_clean_witness :
    cleanCompletion (cleanCompletion ( "foo").data ( "python").data) ( "python").data =
      cleanCompletion ( "foo").data ( "python").data :=
  c5_idempotent_on_clean ( "foo").data ( "python").data (by decide)

/-- Counterexample to claim C5 as stated: sanitizing an input that ends
in a space, a newline and a closing fence strips the fence and exposes a
trailing space, which a second sanitize trims away, so sanitize is not
idempotent on all inputs. -/
theorem c5_counterexample :
    cleanCompletion (cleanCompletion ( "foo \n```").data ( "python").data) ( "python").data ≠
      cleanCompletion ( "foo \n```").data ( "python").data := by
  decide

theorem mem_setCached_with_key (cache : List CacheEntry) (key completion : Str) (t : Int)
    (e : CacheEntry) (he : e ∈ setCachedCompletion cache key completion t)
    (hk : e.key = key) : e = ⟨key, completion, t⟩ := by
  have hpushed : e ∈ (cache.filter fun e => !decide (e.key = key)) ++
      [({ key := key, completion := completion, timestamp := t } : CacheEntry)] := by
    simp only [setCachedCompletion] at he
    split at he
    · exact ((List.perm_insertionSort tsDesc _).mem_iff).mp
        ((List.take_sublist _ _).subset he)
    · exact he
  rcases List.mem_append.mp hpushed with hin | hin
  · rw [List.mem_filter] at hin
    exact absurd hk (by simpa using hin.2)
  · simpa using hin

/-- Claim C3 (confirmed): a lookup never returns an expired entry — any
returned completion comes from a stored entry of the requested key whose
age is under the ttl — and an entry inserted at time t is a miss for every
lookup of its key at a time now with now - t at least the ttl. -/
theorem c3_ttl_expiry :
    (∀ (cache : List CacheEntry) (key : Str) (now : Int) (c : Str),
      (getCachedCompletion cache key now).1 = some c →
      ∃ e, e ∈ cache ∧ e.key = key ∧ now - e.timestamp < cacheExpiryMs ∧
        e.completion = c) ∧
    (∀ (cache : List CacheEntry) (key completion : Str) (t now : Int),
      cacheExpiryMs ≤ now - t →
      (getCachedCompletion (setCachedCompletion cache key completion t) key now).1 =
        none) := by
  constructor
  · intro cache key now c h
    unfold getCachedCompletion at h
    simp only [Option.map_eq_some'] at h
    obtain ⟨e, hfind, hcomp⟩ := h
    have hmem := List.mem_of_find?_eq_some hfind
    have hp := List.find?_some hfind
    rw [List.mem_filter] at hmem
    exact ⟨e, hmem.1, by simpa using hp, by simpa using hmem.2, hcomp⟩
  · intro cache key completion t now hexp
    unfold getCachedCompletion
    simp only [Option.map_eq_none']
    rw [List.find?_eq_none]
    intro e hmem
    rw [List.mem_filter] at hmem
    simp only [decide_eq_true_eq]
    intro hkey
    have he := mem_setCached_with_key cache key completion t e hmem.1 hkey
    have hts : e.timestamp = t := by rw [he]
    have hlive : now - e.timestamp < cacheExpiryMs := by simpa using hmem.2
    rw [hts] at hlive
    omega

/-- Witness for `c3_ttl_expiry`: a hit of a live entry comes from a live
entry, and an entry inserted at time 0 misses at time 300000. -/
theorem c3_ttl_expiry_witness :
    (∃ e, e ∈ [({ key := ( "k").data, completion := ( "v").data, timestamp := 0 } : CacheEntry)] ∧
      e.key = ( "k").data ∧ (100 : Int) - e.timestamp < cacheExpiryMs ∧
      e.completion = ( "v").data) ∧
    (getCachedCompletion
      (setCachedCompletion [] ( "k").data ( "v").data 0) ( "k").data 300000).1 = none :=
  ⟨c3_ttl_expiry.1 [⟨( "k").data, ( "v").data, 0⟩] ( "k").data 100 ( "v").data (by decide),
   c3_ttl_expiry.2 [] ( "k").data ( "v").data 0 300000 (by decide)⟩

/-- Claim C10 (confirmed): a lookup mutates the store by dropping exactly
the entries whose age reached the ttl — whatever their key — and keeps
every live entry unchanged, in order (the mutated store is a sublist of
the old one whose members are exactly the live old members). -/
theorem c10_lookup_frame_effect :
    ∀ (cache : List CacheEntry) (key : Str) (now : Int),
      ((getCachedCompletion cache key now).2).Sublist cache ∧
      (∀ e : CacheEntry, e ∈ (getCachedCompletion cache key now).2 ↔
        e ∈ cache ∧ now - e.timestamp < cacheExpiryMs) := by
  intro cache key now
  constructor
  · exact List.filter_sublist cache
  · intro e
    simp [getCachedCompletion, List.mem_filter]

/-- Claim C6 (confirmed): a request arriving while isGenerating is set
returns the empty result immediately and leaves the scheduling state
untouched — no timer is scheduled, no backend call starts, nothing is
queued. -/
theorem c6_in_flight_rejected :
    ∀ (s : ProvState) (isEnabled enableAutoCompletion eligible : Bool),
      s.isGenerating = true →
      provideInline s isEnabled enableAutoCompletion eligible = (s, some []) := by
  intro s e a g h
  simp [provideInline, h]

/-- Witness for `c6_in_flight_rejected` at a concrete in-flight state. -/
theorem c6_in_flight_rejected_witness :
    provideInline ⟨[7], some 7, 8, true, [], [], []⟩ true true true =
      (⟨[7], some 7, 8, true, [], [], []⟩, some []) :=
  c6_in_flight_rejected ⟨[7], some 7, 8, true, [], [], []⟩ true true true rfl

/-- Claim C7 (confirmed): when the request reaches the generation path (a
cache miss) and the cancellation token is set at the first checkpoint, the
coordinator returns empty without calling the backend; when it is set at
the second checkpoint, it returns empty with the backend called but its
response discarded.  In both cases the store is exactly the one left by
the lookup — the request inserts, removes and modifies nothing after the
checkpoint. -/
theorem c7_cancellation_checkpoints :
    ∀ (cache : List CacheEntry) (contextText languageId : Str) (now : Int)
      (rawResponse : Str) (laterFlag : Bool),
      (getCachedCompletion cache (createCacheKey contextText languageId) now).1 = none →
      (generateCompletions cache contextText languageId now true laterFlag rawResponse =
        { items := [],
          cache := (getCachedCompletion cache (createCacheKey contextText languageId) now).2,
          backendCalled := false } ∧
       generateCompletions cache contextText languageId now false true rawResponse =
        { items := [],
          cache := (getCachedCompletion cache (createCacheKey contextText languageId) now).2,
          backendCalled := true }) := by
  intro cache ctx lang now resp laterFlag h
  constructor <;> simp [generateCompletions, h]

/-- Witness for `c7_cancellation_checkpoints` on the empty store. -/
theorem c7_cancellation_checkpoints_witness :
    generateCompletions [] ( "x").data ( "ts").data 0 true false ( "y").data =
      { items := [], cache := [], backendCalled := false } ∧
    generateCompletions [] ( "x").data ( "ts").data 0 false true ( "y").data =
      { items := [], cache := [], backendCalled := true } :=
  c7_cancellation_checkpoints [] ( "x").data ( "ts").data 0 ( "y").data false (by decide)

/-- Claim C8 (confirmed): when the backend responds and the sanitized
result is empty, the coordinator returns empty, the store stays exactly as
the lookup left it (nothing inserted), and a later identical request on
the resulting store calls the backend again. -/
theorem c8_empty_sanitized_uncached :
    ∀ (cache : List CacheEntry) (contextText languageId : Str) (now : Int)
      (rawResponse : Str),
      (getCachedCompletion cache (createCacheKey contextText languageId) now).1 = none →
      cleanCompletion rawResponse languageId = [] →
      (generateCompletions cache contextText languageId now false false rawResponse =
        { items := [],
          cache := (getCachedCompletion cache (createCacheKey contextText languageId) now).2,
          backendCalled := true } ∧
       (generateCompletions
          ((generateCompletions cache contextText languageId now false false rawResponse).cache)
          contextText languageId now false false rawResponse).backendCalled = true) := by
  intro cache ctx lang now resp h hclean
  have h1 : generateCompletions cache ctx lang now false false resp =
      { items := [],
        cache := (getCachedCompletion cache (createCacheKey ctx lang) now).2,
        backendCalled := true } := by
    simp [generateCompletions, h, hclean]
  refine ⟨h1, ?_⟩
  rw [h1]
  have hfind : (cache.filter fun e =>
      decide (now - e.timestamp < cacheExpiryMs)).find?
        (fun e => decide (e.key = createCacheKey ctx lang)) = none := by
    have h2 := h
    simp only [getCachedCompletion, Option.map_eq_none'] at h2
    exact h2
  have hmiss : (getCachedCompletion
      ((getCachedCompletion cache (createCacheKey ctx lang) now).2)
      (createCacheKey ctx lang) now).1 = none := by
    simp only [getCachedCompletion, Option.map_eq_none', List.filter_filter,
      Bool.and_self]
    exact hfind
  simp [generateCompletions, hmiss, hclean]

/-- Witness for `c8_empty_sanitized_uncached`: the empty backend response
sanitizes to the empty string and is not cached. -/
theorem c8_empty_sanitized_uncached_witness :
    generateCompletions [] ( "ctx").data ( "go").data 0 false false [] =
      { items := [], cache := [], backendCalled := true } ∧
    (generateCompletions
      ((generateCompletions [] ( "ctx").data ( "go").data 0 false false []).cache)
      ( "ctx").data ( "go").data 0 false false []).backendCalled = true :=
  c8_empty_sanitized_uncached [] ( "ctx").data ( "go").data 0 [] (by decide) (by decide)

theorem length_setCached_le (cache : List CacheEntry) (key completion : Str) (now : Int)
    (h : cache.length ≤ maxCacheSize) :
    (setCachedCompletion cache key completion now).length ≤ maxCacheSize := by
  simp only [setCachedCompletion]
  split
  · rw [List.length_take]
    exact min_le_left _ _
  · next h2 => omega

theorem runOps_length_le_aux : ∀ (ops : List CacheOp) (cache : List CacheEntry),
    cache.length ≤ maxCacheSize → (ops.foldl applyOp cache).length ≤ maxCacheSize := by
  intro ops
  induction ops with
  | nil => intro cache h; exact h
  | cons op rest ih =>
    intro cache h
    rw [List.foldl_cons]
    apply ih
    cases op with
    | set k c n => exact length_setCached_le cache k c n h
    | lookup k n =>
      simp only [applyOp, getCachedCompletion]
      exact le_trans (List.length_filter_le _ _) h
    | clear => simp [applyOp]

theorem filter_keyne_eq_self (c : List CacheEntry) (key : Str)
    (h : ∀ e ∈ c, e.key ≠ key) :
    (c.filter fun e => !decide (e.key = key)) = c := by
  rw [List.filter_eq_self]
  intro a ha
  simpa using h a ha

theorem insertionSort_eq_of_pairwise (l target : List CacheEntry)
    (hperm : l.Perm target) (hsorted : List.Pairwise tsDescStrict target) :
    l.insertionSort tsDesc = target := by
  have hperm2 : (l.insertionSort tsDesc).Perm target :=
    (List.perm_insertionSort tsDesc l).trans hperm
  have hsort2 : List.Pairwise tsDesc (l.insertionSort tsDesc) :=
    List.sorted_insertionSort tsDesc l
  have hne_t : List.Pairwise (fun a b : CacheEntry => a.timestamp ≠ b.timestamp) target :=
    hsorted.imp fun h => ne_of_gt h
  have hne_s : List.Pairwise (fun a b : CacheEntry => a.timestamp ≠ b.timestamp)
      (l.insertionSort tsDesc) :=
    (List.Perm.pairwise_iff (fun h => Ne.symm h) hperm2).mpr hne_t
  have hstrict : List.Pairwise tsDescStrict (l.insertionSort tsDesc) :=
    (hsort2.and hne_s).imp fun h => lt_of_le_of_ne h.1 (Ne.symm h.2)
  exact List.eq_of_perm_of_sorted hperm2 hstrict hsorted

theorem pairwise_strict_of_inserts (A : List (Str × Str × Int))
    (h : List.Pairwise (fun i j => i.2.2 < j.2.2) A) :
    List.Pairwise tsDescStrict ((A.map mkEntry).reverse) := by
  rw [List.pairwise_reverse, List.pairwise_map]
  exact h.imp fun hij => hij

theorem dropLast_reverse_eq (m : List CacheEntry) :
    m.reverse.dropLast = m.tail.reverse := by
  cases m with
  | nil => rfl
  | cons a t => simp [List.reverse_cons, List.dropLast_concat]

theorem setCached_expected_step (l : List (Str × Str × Int)) (x : Str × Str × Int)
    (hk : ∀ i ∈ l, i.1 ≠ x.1) (ht : ∀ i ∈ l, i.2.2 < x.2.2)
    (hp : List.Pairwise (fun i j => i.2.2 < j.2.2) l) :
    setCachedCompletion (expectedCache l) x.1 x.2.1 x.2.2 = expectedCache (l ++ [x]) := by
  have hM : 1 ≤ maxCacheSize := by norm_num [maxCacheSize]
  rcases lt_trichotomy l.length maxCacheSize with hlt | heq | hgt
  · have hexp : expectedCache l = l.map mkEntry := by
      rw [expectedCache, if_pos (le_of_lt hlt)]
    have hkeys : ∀ e ∈ l.map mkEntry, e.key ≠ x.1 := by
      intro e he
      obtain ⟨i, hi, rfl⟩ := List.mem_map.mp he
      exact hk i hi
    rw [hexp]
    simp only [setCachedCompletion]
    rw [filter_keyne_eq_self _ _ hkeys]
    have hlen : ¬ (maxCacheSize <
        (l.map mkEntry ++ [({ key := x.1, completion := x.2.1, timestamp := x.2.2 } : CacheEntry)]).length) := by
      rw [List.length_append, List.length_map]
      simp only [List.length_cons, List.length_nil]
      omega
    rw [if_neg hlen, expectedCache, if_pos (by rw [List.length_append]; simp; omega),
      List.map_append]
    rfl
  · have hexp : expectedCache l = l.map mkEntry := by
      rw [expectedCache, if_pos (le_of_eq heq)]
    have hkeys : ∀ e ∈ l.map mkEntry, e.key ≠ x.1 := by
      intro e he
      obtain ⟨i, hi, rfl⟩ := List.mem_map.mp he
      exact hk i hi
    rw [hexp]
    simp only [setCachedCompletion]
    rw [filter_keyne_eq_self _ _ hkeys]
    have hpush : l.map mkEntry ++ [({ key := x.1, completion := x.2.1, timestamp := x.2.2 } : CacheEntry)] =
        (l ++ [x]).map mkEntry := by
      rw [List.map_append]
      rfl
    rw [hpush]
    have hlen : maxCacheSize < ((l ++ [x]).map mkEntry).length := by
      rw [List.length_map, List.length_append]
      simp only [List.length_cons, List.length_nil]
      omega
    rw [if_pos hlen]
    have hpAll : List.Pairwise (fun i j => i.2.2 < j.2.2) (l ++ [x]) := by
      rw [List.pairwise_append]
      refine ⟨hp, by simp, fun a ha b hb => ?_⟩
      rw [List.mem_singleton] at hb
      subst hb
      exact ht a ha
    have hsorted := pairwise_strict_of_inserts (l ++ [x]) hpAll
    have hperm : ((l ++ [x]).map mkEntry).Perm (((l ++ [x]).map mkEntry).reverse) :=
      (List.reverse_perm _).symm
    rw [insertionSort_eq_of_pairwise _ _ hperm hsorted]
    have hlenS : (((l ++ [x]).map mkEntry).reverse).length = maxCacheSize + 1 := by
      rw [List.length_reverse, List.length_map, List.length_append]
      simp only [List.length_cons, List.length_nil]
      omega
    have htake : (((l ++ [x]).map mkEntry).reverse).take maxCacheSize =
        (((l ++ [x]).map mkEntry).reverse).dropLast := by
      rw [List.dropLast_eq_take, hlenS]
      simp
    rw [htake, dropLast_reverse_eq]
    have htail : ((l ++ [x]).map mkEntry).tail = ((l ++ [x]).drop 1).map mkEntry := by
      rw [← List.drop_one, List.map_drop]
    have hgt2 : ¬ ((l ++ [x]).length ≤ maxCacheSize) := by
      rw [List.length_append]
      simp only [List.length_cons, List.length_nil]
      omega
    have hidx : (l ++ [x]).length - maxCacheSize = 1 := by
      rw [List.length_append]
      simp only [List.length_cons, List.length_nil]
      omega
    rw [htail, expectedCache, if_neg hgt2, hidx]
  · have hexp : expectedCache l = ((l.drop (l.length - maxCacheSize)).map mkEntry).reverse := by
      rw [expectedCache, if_neg (not_le.mpr hgt)]
    have hAkeys : ∀ e ∈ ((l.drop (l.length - maxCacheSize)).map mkEntry).reverse,
        e.key ≠ x.1 := by
      intro e he
      rw [List.mem_reverse] at he
      obtain ⟨i, hi, rfl⟩ := List.mem_map.mp he
      exact hk i ((List.drop_sublist _ _).subset hi)
    rw [hexp]
    simp only [setCachedCompletion]
    rw [filter_keyne_eq_self _ _ hAkeys]
    have hAlen : (l.drop (l.length - maxCacheSize)).length = maxCacheSize := by
      rw [List.length_drop]
      omega
    have hlen : maxCacheSize <
        ((((l.drop (l.length - maxCacheSize)).map mkEntry).reverse) ++
          [({ key := x.1, completion := x.2.1, timestamp := x.2.2 } : CacheEntry)]).length := by
      rw [List.length_append, List.length_reverse, List.length_map, hAlen]
      simp only [List.length_cons, List.length_nil]
      omega
    rw [if_pos hlen]
    have hpA : List.Pairwise (fun i j => i.2.2 < j.2.2)
        (l.drop (l.length - maxCacheSize) ++ [x]) := by
      rw [List.pairwise_append]
      refine ⟨hp.sublist (List.drop_sublist _ _), by simp, fun a ha b hb => ?_⟩
      rw [List.mem_singleton] at hb
      subst hb
      exact ht a ((List.drop_sublist _ _).subset ha)
    have hsorted := pairwise_strict_of_inserts _ hpA
    have hS : ((l.drop (l.length - maxCacheSize) ++ [x]).map mkEntry).reverse =
        ({ key := x.1, completion := x.2.1, timestamp := x.2.2 } : CacheEntry) ::
          ((l.drop (l.length - maxCacheSize)).map mkEntry).reverse := by
      rw [List.map_append, List.reverse_append]
      rfl
    have hperm : ((((l.drop (l.length - maxCacheSize)).map mkEntry).reverse) ++
        [({ key := x.1, completion := x.2.1, timestamp := x.2.2 } : CacheEntry)]).Perm
        (((l.drop (l.length - maxCacheSize) ++ [x]).map mkEntry).reverse) := by
      rw [hS]
      exact List.perm_append_singleton _ _
    rw [insertionSort_eq_of_pairwise _ _ hperm hsorted]
    have hlenS : (((l.drop (l.length - maxCacheSize) ++ [x]).map mkEntry).reverse).length =
        maxCacheSize + 1 := by
      rw [List.length_reverse, List.length_map, List.length_append, hAlen]
      simp only [List.length_cons, List.length_nil]
    have htake : (((l.drop (l.length - maxCacheSize) ++ [x]).map mkEntry).reverse).take
        maxCacheSize =
        (((l.drop (l.length - maxCacheSize) ++ [x]).map mkEntry).reverse).dropLast := by
      rw [List.dropLast_eq_take, hlenS]
      simp
    rw [htake, dropLast_reverse_eq]
    have htail : ((l.drop (l.length - maxCacheSize) ++ [x]).map mkEntry).tail =
        ((l.drop (l.length - maxCacheSize) ++ [x]).drop 1).map mkEntry := by
      rw [← List.drop_one, List.map_drop]
    have hdrop1 : (l.drop (l.length - maxCacheSize) ++ [x]).drop 1 =
        l.drop (l.length + 1 - maxCacheSize) ++ [x] := by
      rw [List.drop_append_of_le_length (by omega), List.drop_drop]
      congr 2
      omega
    have hgt2 : ¬ ((l ++ [x]).length ≤ maxCacheSize) := by
      rw [List.length_append]
      simp only [List.length_cons, List.length_nil]
      omega
    have hidx2 : (l ++ [x]).length - maxCacheSize = l.length + 1 - maxCacheSize := by
      rw [List.length_append]
      simp only [List.length_cons, List.length_nil]
    rw [htail, hdrop1, expectedCache, if_neg hgt2, hidx2,
      List.drop_append_of_le_length (by omega)]

theorem applyInserts_eq_expected : ∀ (inserts : List (Str × Str × Int)),
    List.Pairwise (fun i j => i.1 ≠ j.1) inserts →
    List.Pairwise (fun i j => i.2.2 < j.2.2) inserts →
    applyInserts inserts = expectedCache inserts := by
  intro inserts
  induction inserts using List.reverseRecOn with
  | nil => intro _ _; rfl
  | append_singleton l x ih =>
    intro hk ht
    rw [List.pairwise_append] at hk ht
    have hfold : applyInserts (l ++ [x]) =
        setCachedCompletion (applyInserts l) x.1 x.2.1 x.2.2 := by
      simp [applyInserts, List.foldl_append]
    rw [hfold, ih hk.1 ht.1]
    exact setCached_expected_step l x
      (fun i hi => hk.2.2 i hi x (List.mem_singleton_self x))
      (fun i hi => ht.2.2 i hi x (List.mem_singleton_self x))
      ht.1

/-- Claim C2 (confirmed): after every sequence of store mutations
(inserts, expiry-filtering lookups, clears) the store holds at most
maxCacheSize entries; and a sequence of inserts with fresh keys and
increasing creation times leaves, once the count exceeds maxCacheSize,
exactly the maxCacheSize most recently created entries (the tail of the
insert sequence, kept in descending-timestamp order by the eviction
sort). -/
theorem c2_size_bound_and_eviction :
    (∀ ops : List CacheOp, (runOps ops).length ≤ maxCacheSize) ∧
    (∀ inserts : List (Str × Str × Int),
      List.Pairwise (fun i j => i.1 ≠ j.1) inserts →
      List.Pairwise (fun i j => i.2.2 < j.2.2) inserts →
      applyInserts inserts = expectedCache inserts) := by
  constructor
  · intro ops
    exact runOps_length_le_aux ops [] (by simp)
  · exact applyInserts_eq_expected

/-- Witness for `c2_size_bound_and_eviction` on a one-insert operation
sequence and a two-insert eviction run. -/
theorem c2_size_bound_and_eviction_witness :
    (runOps [CacheOp.set ( "k").data ( "v").data 5]).length ≤ maxCacheSize ∧
    applyInserts [(( "a").data, ( "u").data, (1 : Int)), (( "b").data, ( "w").data, 2)] =
      expectedCache [(( "a").data, ( "u").data, 1), (( "b").data, ( "w").data, 2)] :=
  ⟨c2_size_bound_and_eviction.1 _,
   c2_size_bound_and_eviction.2 _ (by decide) (by decide)⟩

theorem provInv_init : ProvInv initProvState := by
  simp [ProvInv, initProvState]

theorem provInv_sched_core (ni : Nat) (ig : Bool) (rr ct bf : List Nat)
    (h3 : ∀ id ∈ ct, id < ni) (h4 : ∀ id ∈ rr, id < ni)
    (h5 : ∀ id ∈ ct, id ∉ rr) :
    ProvInv ⟨[ni], some ni, ni + 1, ig, rr, ct, bf⟩ := by
  refine ⟨Or.inr ⟨ni, rfl, rfl⟩, ?_, ?_, ?_, ?_, ?_⟩
  · intro id hid
    rw [List.mem_singleton] at hid
    subst hid
    exact Nat.lt_succ_self _
  · intro id hid
    exact Nat.lt_succ_of_lt (h3 id hid)
  · intro id hid
    exact Nat.lt_succ_of_lt (h4 id hid)
  · intro id hid
    refine ⟨h5 id hid, ?_⟩
    rw [List.mem_singleton]
    exact Nat.ne_of_lt (h3 id hid)
  · intro id hid
    rw [List.mem_singleton]
    exact Nat.ne_of_lt (h4 id hid)

theorem provInv_schedule (s : ProvState) (h : ProvInv s) :
    ProvInv (scheduleRequest s) := by
  obtain ⟨pt, dt, ni, ig, rr, ct, bf⟩ := s
  obtain ⟨h1, h2, h3, h4, h5, h6⟩ := h
  simp only at h1 h2 h3 h4 h5 h6
  cases dt with
  | none =>
    have hpt : pt = [] := by
      rcases h1 with h | ⟨d, hd, _⟩
      · exact h
      · cases hd
    subst hpt
    have hsr : scheduleRequest ⟨[], none, ni, ig, rr, ct, bf⟩ =
        ⟨[ni], some ni, ni + 1, ig, rr, ct, bf⟩ := by
      simp [scheduleRequest]
    rw [hsr]
    exact provInv_sched_core ni ig rr ct bf h3 h4 (fun id hid => (h5 id hid).1)
  | some d =>
    rcases h1 with hpt | ⟨d2, hd2, hpt⟩
    · subst hpt
      have hsr : scheduleRequest ⟨[], some d, ni, ig, rr, ct, bf⟩ =
          ⟨[ni], some ni, ni + 1, ig, rr, ct, bf⟩ := by
        simp [scheduleRequest]
      rw [hsr]
      exact provInv_sched_core ni ig rr ct bf h3 h4 (fun id hid => (h5 id hid).1)
    · have hdd : d = d2 := Option.some_inj.mp hd2
      subst hdd
      subst hpt
      have hd_ni : d < ni := h2 d (List.mem_singleton_self d)
      have hsr : scheduleRequest ⟨[d], some d, ni, ig, rr, ct, bf⟩ =
          ⟨[ni], some ni, ni + 1, ig, rr, ct ++ [d], bf⟩ := by
        simp [scheduleRequest]
      rw [hsr]
      apply provInv_sched_core
      · intro id hid
        rw [List.mem_append, List.mem_singleton] at hid
        rcases hid with hid | hid
        · exact h3 id hid
        · subst hid
          exact hd_ni
      · exact h4
      · intro id hid
        rw [List.mem_append, List.mem_singleton] at hid
        rcases hid with hid | hid
        · exact (h5 id hid).1
        · subst hid
          exact fun hdr => h6 id hdr (List.mem_singleton_self id)

theorem provInv_fire (s : ProvState) (id : Nat) (s2 : ProvState)
    (h : fireTimer s id = some s2) (hi : ProvInv s) : ProvInv s2 := by
  obtain ⟨pt, dt, ni, ig, rr, ct, bf⟩ := s
  obtain ⟨h1, h2, h3, h4, h5, h6⟩ := hi
  simp only at h1 h2 h3 h4 h5 h6
  unfold fireTimer at h
  split at h
  · next hid =>
    have hs2 := (Option.some_inj.mp h).symm
    subst hs2
    simp only at hid
    have hpt : pt = [id] := by
      rcases h1 with hnil | ⟨d, hd, hpd⟩
      · rw [hnil] at hid
        cases hid
      · rw [hpd] at hid ⊢
        rw [List.mem_singleton] at hid
        subst hid
        rfl
    subst hpt
    refine ⟨Or.inl (by simp), ?_, ?_, ?_, ?_, ?_⟩
    · intro j hj
      simp at hj
    · intro j hj
      exact h3 j hj
    · intro j hj
      simp only [List.mem_append, List.mem_singleton] at hj
      rcases hj with hj | hj
      · exact h4 j hj
      · subst hj
        exact h2 j (List.mem_singleton_self j)
    · intro j hj
      refine ⟨?_, by simp⟩
      intro hr
      simp only [List.mem_append, List.mem_singleton] at hr
      rcases hr with hr | hr
      · exact (h5 j hj).1 hr
      · subst hr
        exact (h5 j hj).2 (List.mem_singleton_self j)
    · intro j hj
      simp
  · cases h

theorem provInv_step (s : ProvState) (e : Ev) (s2 : ProvState)
    (h : stepEv s e = some s2) (hi : ProvInv s) : ProvInv s2 := by
  cases e with
  | req en au el =>
    have hs2 := (Option.some_inj.mp h).symm
    subst hs2
    unfold provideInline
    split
    · exact hi
    · split
      · exact hi
      · exact provInv_schedule s hi
  | fire id => exact provInv_fire s id s2 h hi

theorem provInv_run : ∀ (evs : List Ev) (s s2 : ProvState),
    ProvInv s → runEvents s evs = some s2 → ProvInv s2 := by
  intro evs
  induction evs with
  | nil =>
    intro s s2 hi h
    rw [runEvents] at h
    rw [← Option.some_inj.mp h]
    exact hi
  | cons e rest ih =>
    intro s s2 hi h
    rw [runEvents] at h
    cases hstep : stepEv s e with
    | none => rw [hstep] at h; cases h
    | some s3 =>
      rw [hstep] at h
      exact ih s3 s2 (provInv_step s e s3 hstep hi) h

/-- Claim C1 (corrected): in every reachable scheduling state only the
most recently scheduled debounce timer can still fire (any pending timer
is the stored debounceTimer), so only the newest fire can proceed towards
a backend call; and a superseded request — one whose timer handle was
cleared by a later keystroke — never has its promise resolved at all: the
superseded call never completes, with an empty result or otherwise. -/
theorem c1_superseded_never_resolves :
    ∀ (evs : List Ev) (s : ProvState),
      runEvents initProvState evs = some s →
      (∀ id ∈ s.pendingTimers, s.debounceTimer = some id) ∧
      (∀ a ∈ s.cancelledTimers, a ∉ s.resolvedReqs) := by
  intro evs s h
  obtain ⟨h1, _, _, _, h5, _⟩ := provInv_run evs initProvState s provInv_init h
  constructor
  · intro id hid
    rcases h1 with hnil | ⟨d, hd, hpd⟩
    · rw [hnil] at hid
      cases hid
    · rw [hpd, List.mem_singleton] at hid
      subst hid
      exact hd
  · intro a ha
    exact (h5 a ha).1

/-- Witness for `c1_superseded_never_resolves` on the trace where request
0 is superseded by request 1 and the timer of request 1 then fires. -/
theorem c1_superseded_never_resolves_witness :
    0 ∉ (⟨[], some 1, 2, false, [1], [0], [1]⟩ : ProvState).resolvedReqs :=
  (c1_superseded_never_resolves
    [Ev.req true true true, Ev.req true true true, Ev.fire 1]
    ⟨[], some 1, 2, false, [1], [0], [1]⟩ (by decide)).2 0 (by decide)

/-- Counterexample to claim C1 as stated: after two keystrokes and the
fire of the timer of the second request, request 0 has been superseded
(cancelledTimers = [0]) yet the only resolved promise is that of
request 1 — the superseded request did not complete with an empty
result, and by
`c1_superseded_never_resolves` it never will. -/
theorem c1_counterexample :
    (runEvents initProvState
      [Ev.req true true true, Ev.req true true true, Ev.fire 1]).map
      (fun s => (s.cancelledTimers, s.resolvedReqs)) = some ([0], [1]) := by
  decide

/-- Claim C9 (confirmed): the eligibility filter accepts exactly when the
trimmed line prefix has length at least 3, the trimmed prefix does not
begin with a comment opener of the language (unknown languages are never
rejected on that rule, their opener set being empty), and the cursor does
not sit with word characters immediately on both sides; and the three
instances from the claim: a prefix of length 2 rejected, one of length 3
accepted, a cursor with word characters on both sides rejected. -/
theorem c9_eligibility_characterisation :
    (∀ (lineText : Str) (character : Nat) (languageId : Str),
      shouldProvideCompletion lineText character languageId = true ↔
        (3 ≤ (trimStr (lineText.take character)).length ∧
         (∀ p ∈ commentPatterns languageId, ¬ p <+: trimStr (lineText.take character)) ∧
         ¬(0 < character ∧ wordAt lineText (character - 1) = true ∧
            wordAt lineText character = true))) ∧
    shouldProvideCompletion ( "ab").data 2 ( "typescript").data = false ∧
    shouldProvideCompletion ( "abc").data 3 ( "typescript").data = true ∧
    shouldProvideCompletion ( "foo").data 2 ( "typescript").data = false := by
  refine ⟨?_, by decide, by decide, by decide⟩
  intro lineText character languageId
  by_cases hic : isInComment (lineText.take character) languageId = true
  · have hex : ∃ p ∈ commentPatterns languageId,
        p <+: trimStr (lineText.take character) := by
      rw [isInComment, List.any_eq_true] at hic
      obtain ⟨p, hp, hpre⟩ := hic
      exact ⟨p, hp, List.isPrefixOf_iff_prefix.mp hpre⟩
    simp only [shouldProvideCompletion, hic, if_true]
    constructor
    · intro h
      cases h
    · rintro ⟨_, hall, _⟩
      obtain ⟨p, hp, hpre⟩ := hex
      exact absurd hpre (hall p hp)
  · have hall : ∀ p ∈ commentPatterns languageId,
        ¬ p <+: trimStr (lineText.take character) := by
      intro p hp hpre
      apply hic
      rw [isInComment, List.any_eq_true]
      exact ⟨p, hp, List.isPrefixOf_iff_prefix.mpr hpre⟩
    simp only [shouldProvideCompletion, if_neg hic]
    by_cases hlen : (trimStr (lineText.take character)).length < 3
    · rw [if_pos hlen]
      constructor
      · intro h
        cases h
      · rintro ⟨h3, _, _⟩
        omega
    · rw [if_neg hlen]
      have hca : (if character < lineText.length then lineText[character]? else none) =
          lineText[character]? := by
        split
        · rfl
        · next hge => rw [List.getElem?_eq_none (by omega)]
      have hmidiff : ((if character < lineText.length then lineText[character]? else none).any
            isWordChar &&
          (if 0 < character then lineText[character - 1]? else none).any isWordChar) = true ↔
          (0 < character ∧ wordAt lineText (character - 1) = true ∧
            wordAt lineText character = true) := by
        rw [Bool.and_eq_true, hca]
        by_cases hpos : 0 < character
        · rw [if_pos hpos]
          unfold wordAt
          constructor
          · rintro ⟨ha, hb⟩
            exact ⟨hpos, hb, ha⟩
          · rintro ⟨_, hb, ha⟩
            exact ⟨ha, hb⟩
        · rw [if_neg hpos]
          constructor
          · rintro ⟨_, hfalse⟩
            cases hfalse
          · rintro ⟨h0, _⟩
            exact absurd h0 hpos
      by_cases hcond : ((if character < lineText.length then lineText[character]? else none).any
            isWordChar &&
          (if 0 < character then lineText[character - 1]? else none).any isWordChar) = true
      · rw [if_pos hcond]
        constructor
        · intro h
          cases h
        · rintro ⟨_, _, hmid⟩
          exact absurd (hmidiff.mp hcond) hmid
      · rw [if_neg hcond]
        constructor
        · intro _
          exact ⟨by omega, hall, fun hm => hcond (hmidiff.mpr hm)⟩
        · intro _
          rfl

/-- Witness for `c9_eligibility_characterisation`: a four-character line
with the cursor at its end is accepted for an unknown-to-the-table check
of the go table. -/
theorem c9_eligibility_characterisation_witness :
    shouldProvideCompletion ( "abcd").data 4 ( "go").data = true :=
  (c9_eligibility_characterisation.1 ( "abcd").data 4 ( "go").data).mpr
    ⟨by decide, by decide, by decide⟩

/-- Witness for `c10_lookup_frame_effect` on a one-entry store. -/
theorem c10_lookup_frame_effect_witness :
    ((getCachedCompletion [⟨( "k").data, ( "v").data, 0⟩] ( "k").data 5).2).Sublist
      [⟨( "k").data, ( "v").data, 0⟩] ∧
    (⟨( "k").data, ( "v").data, 0⟩ ∈
        (getCachedCompletion [⟨( "k").data, ( "v").data, 0⟩] ( "k").data 5).2 ↔
      ⟨( "k").data, ( "v").data, 0⟩ ∈ [(⟨( "k").data, ( "v").data, 0⟩ : CacheEntry)] ∧
        (5 : Int) - 0 < cacheExpiryMs) :=
  ⟨(c10_lookup_frame_effect [⟨( "k").data, ( "v").data, 0⟩] ( "k").data 5).1,
   (c10_lookup_frame_effect [⟨( "k").data, ( "v").data, 0⟩] ( "k").data 5).2 _⟩
